import Mathlib

/-!
Verification of the hecto text-buffer core (src/row.rs, src/document.rs,
src/filetype.rs, src/highlighting.rs) against its natural-language
specification.

Modelling conventions (shallow embedding):
* A line's content is a `List Char`.  The Rust source mixes three indexing
  units (bytes for `str` slicing and `str::find`, `char`s for the scan loop,
  grapheme clusters for the cached length); the spec's design notes call this
  mismatch out and require a single consistent unit.  This embedding uses the
  `char` unit uniformly (it coincides with bytes and graphemes on ASCII
  content, which is the domain of every built-in language profile).
* Rust `usize` arithmetic on indices uses `Nat`; the source's
  `saturating_sub` is `Nat` subtraction.  `checked_add` cannot overflow on
  `Nat`, so it always succeeds in the model.
* Vector pushes in counted loops (`for _ in a..b { push }`) are rendered as
  `List.replicate (b - a)`.
* Rust panics on out-of-bounds indexing are unreachable in the modelled
  call paths; at those spots the model reads with `getD`/`get?` and the
  corresponding branch is marked unreachable in a comment.
* File I/O in `Document::save` is abstracted by two booleans telling whether
  `File::create` and the subsequent writes succeed.
-/

/-- Classification tags: `highlighting::Type` from src/highlighting.rs.
The spec's names {None, Number, SearchMatch, String, CharacterLiteral,
LineComment, MultilineComment, PrimaryKeyword, SecondaryKeyword} correspond
to the source names used here (Match = SearchMatch, Character =
CharacterLiteral, Comment = LineComment). -/
inductive HType where
  | None
  | Number
  | Match
  | String
  | Character
  | Comment
  | MultilineComment
  | PrimaryKeyword
  | SecondaryKeyword
deriving DecidableEq

/-- The closed set of classification tags (all nine constructors). -/
def allHTypes : List HType :=
  [HType.None, HType.Number, HType.Match, HType.String, HType.Character,
   HType.Comment, HType.MultilineComment, HType.PrimaryKeyword,
   HType.SecondaryKeyword]

/-- `HighlightingOptions` from src/filetype.rs: flags and keyword lists of a
language profile. -/
structure HighlightingOptions where
  numbers : Bool
  strings : Bool
  characters : Bool
  comments : Bool
  multiline_comments : Bool
  primary_keywords : List (List Char)
  secondary_keywords : List (List Char)

/-- `FileType` from src/filetype.rs. -/
structure FileType where
  name : List Char
  hl_opts : HighlightingOptions

/-- `SearchDirection` (declared in the crate root, used by `Row::find` and
`Document::find`). -/
inductive SearchDirection where
  | Forward
  | Backward

/-- `Position` from the crate root: grapheme column `x`, line index `y`. -/
structure Position where
  x : Nat
  y : Nat

/-- `Row` from src/row.rs: line content, classification tags, cached length,
freshness flag. -/
structure Row where
  string : List Char
  highlighting : List HType
  len : Nat
  is_highlighted : Bool
deriving DecidableEq

/-- `Row::default()` (derived `Default` in the source): empty content, no
tags, length 0, not highlighted. -/
def rowDefault : Row := ⟨[], [], 0, false⟩

/-- `Document` from src/document.rs. -/
structure Document where
  rows : List Row
  file_name : Option (List Char)
  dirty : Bool
  file_type : FileType

/- Named characters, to keep quote/apostrophe/backslash literals out of the
source text. -/

/-- The character `/`. -/
def slashC : Char := '/'

/-- The character `*`. -/
def starC : Char := '*'

/-- The double-quote character `"` (code point 34). -/
def quoteC : Char := Char.ofNat 34

/-- The apostrophe character (code point 39), the `'` delimiter of Rust
character literals. -/
def apostC : Char := Char.ofNat 39

/-- The backslash character (code point 92). -/
def bslashC : Char := Char.ofNat 92

/-- The newline character (code point 10). -/
def newlineC : Char := Char.ofNat 10

/-- The character `.`. -/
def dotC : Char := '.'

/-- `is_separator` from src/row.rs: ASCII punctuation or ASCII whitespace.
`char::is_ascii_punctuation` covers code points 33-47, 58-64, 91-96 and
123-126; `char::is_ascii_whitespace` covers space, tab, newline, form feed
and carriage return. -/
def is_separator (c : Char) : Bool :=
  let n := c.toNat
  (decide (33 ≤ n ∧ n ≤ 47) || decide (58 ≤ n ∧ n ≤ 64) ||
   decide (91 ≤ n ∧ n ≤ 96) || decide (123 ≤ n ∧ n ≤ 126)) ||
  (decide (n = 32) || decide (n = 9) || decide (n = 10) ||
   decide (n = 12) || decide (n = 13))

/-- `Row::from(&str)`: content as given, empty tags, cached length = unit
count of the content, not highlighted. -/
def Row.fromText (s : List Char) : Row := ⟨s, [], s.length, false⟩

/-- The splice walk of `Row::insert`'s non-append path: walk the units,
recounting them, and put `c` in front of the unit whose index equals the
insertion position.  The countdown on the first argument mirrors the
`index == at` test of the enumerate loop.  If the position is never reached
the walk just recopies and recounts the content. -/
def insertWalk (c : Char) : Nat → List Char → List Char × Nat
  | _, [] => ([], 0)
  | 0, g :: rest => (c :: g :: rest, rest.length + 2)
  | n + 1, g :: rest =>
    let r := insertWalk c n rest
    (g :: r.1, r.2 + 1)

/-- `Row::insert`: at or past the cached length, push at the end and bump the
cached length; otherwise rebuild by `insertWalk`. -/
def Row.insert (r : Row) (p : Nat) (c : Char) : Row :=
  if r.len ≤ p then { r with string := r.string ++ [c], len := r.len + 1 }
  else
    let w := insertWalk c p r.string
    { r with string := w.1, len := w.2 }

/-- The rebuild walk of `Row::delete`: copy and recount every unit except the
one at the deletion position. -/
def deleteWalk : Nat → List Char → List Char × Nat
  | _, [] => ([], 0)
  | 0, _ :: rest => (rest, rest.length)
  | n + 1, g :: rest =>
    let r := deleteWalk n rest
    (g :: r.1, r.2 + 1)

/-- `Row::delete`: no-op at or past the cached length, otherwise rebuild
omitting the unit at the position. -/
def Row.delete (r : Row) (p : Nat) : Row :=
  if r.len ≤ p then r
  else
    let w := deleteWalk p r.string
    { r with string := w.1, len := w.2 }

/-- `Row::append`: concatenate the other row's content, add the cached
lengths. -/
def Row.append (r other : Row) : Row :=
  { r with string := r.string ++ other.string, len := r.len + other.len }

/-- The partition walk of `Row::split`: units with index below the split
point go to the prefix, the rest to the suffix, both recounted. -/
def splitWalk : Nat → List Char → (List Char × Nat) × (List Char × Nat)
  | _, [] => (([], 0), ([], 0))
  | 0, g :: rest => (([], 0), (g :: rest, rest.length + 1))
  | n + 1, g :: rest =>
    let r := splitWalk n rest
    ((g :: r.1.1, r.1.2 + 1), r.2)

/-- `Row::split`: the mutated prefix keeps the row's tags but loses
freshness; the returned suffix starts with no tags and no freshness. -/
def Row.split (r : Row) (p : Nat) : Row × Row :=
  let w := splitWalk p r.string
  ({ r with string := w.1.1, len := w.1.2, is_highlighted := false },
   ⟨w.2.1, [], w.2.2, false⟩)

/-- Index of the first occurrence of `pat` in `l` (Rust `str::find` on a
substring pattern, with char-unit indices).  An empty pattern matches at
index 0, as in Rust. -/
def subIdx : List Char → List Char → Option Nat
  | [], pat => if pat = [] then some 0 else none
  | l@(_ :: rest), pat =>
    if pat.isPrefixOf l then some 0 else (subIdx rest pat).map (· + 1)

/-- Index of the last occurrence of `pat` in `l` (Rust `str::rfind`); an
empty pattern matches at the end, as in Rust. -/
def subIdxLast : List Char → List Char → Option Nat
  | [], pat => if pat = [] then some 0 else none
  | l@(_ :: rest), pat =>
    match subIdxLast rest pat with
    | some k => some (k + 1)
    | none => if pat.isPrefixOf l then some 0 else none

/-- The per-unit comparison loop of `Row::highlight_str`: does `sub` occur in
`chars` starting at `index`? -/
def matchesAt (chars : List Char) (index : Nat) : List Char → Bool
  | [] => true
  | c :: rest =>
    match chars[index]? with
    | some ch => ch = c && matchesAt chars (index + 1) rest
    | none => false

/-- `Row::highlight_char`: on an enabled apostrophe, require a closing
apostrophe 2 or 3 units ahead (3 when the next unit is a backslash escape);
returns the index one past the consumed span.  The rule tags
`closing - index + 1` units `Character`, exactly the advancement. -/
def highlight_char (opts : HighlightingOptions) (index : Nat) (c : Char)
    (chars : List Char) : Option Nat :=
  if opts.characters ∧ c = apostC then
    match chars[index + 1]? with
    | some next =>
      let closing := if next = bslashC then index + 3 else index + 2
      match chars[closing]? with
      | some cc => if cc = apostC then some (closing + 1) else none
      | none => none
    | none => none
  else none

/-- `Row::highlight_comment`: on an enabled `//` pair, consume to end of
line; every consumed unit is tagged `Comment`. -/
def highlight_comment (opts : HighlightingOptions) (index : Nat) (c : Char)
    (chars : List Char) : Option Nat :=
  if opts.comments ∧ c = slashC ∧ index < chars.length then
    match chars[index + 1]? with
    | some next => if next = slashC then some chars.length else none
    | none => none
  else none

/-- `Row::highlight_multiline_comment`: the source gates this rule on
`opts.comments()` (the line-comment flag), not on
`opts.multiline_comments()`.  On a `/*` pair, consume through the closing
`*/` found from two units further on (`self.string[index + 2..].find`),
else to end of line; every consumed unit is tagged `MultilineComment`. -/
def highlight_multiline_comment (opts : HighlightingOptions) (index : Nat)
    (c : Char) (chars : List Char) : Option Nat :=
  if opts.comments ∧ c = slashC ∧ index < chars.length then
    match chars[index + 1]? with
    | some next =>
      if next = starC then
        some (match subIdx (chars.drop (index + 2)) [starC, slashC] with
              | some ci => index + ci + 4
              | none => chars.length)
      else none
    | none => none
  else none

/-- `Row::highlight_string`: on an enabled opening quote, consume the quote
and then greedily up to and including the next quote; when the line ends
first, the closing push still happens, so the returned index can be one past
the end of the line.  Every consumed unit is tagged `String`. -/
def highlight_string (opts : HighlightingOptions) (index : Nat) (c : Char)
    (chars : List Char) : Option Nat :=
  if opts.strings ∧ c = quoteC then
    some (index + 1 +
      ((chars.drop (index + 1)).takeWhile (fun ch => ch ≠ quoteC)).length + 1)
  else none

/-- The preceding-separator test of `Row::highlight_number`: with no
preceding unit the rule applies; otherwise the preceding unit must be a
separator. -/
def numberPrevOk (index : Nat) (chars : List Char) : Bool :=
  if 0 < index then
    match chars[index - 1]? with
    | some prev => is_separator prev
    | none => false   -- unreachable: the caller scans within the line
  else true

/-- `Row::highlight_number`: on an enabled digit whose preceding unit (if
any) is a separator (`numberPrevOk`), consume consecutive digits and dots.
Every consumed unit is tagged `Number`. -/
def highlight_number (opts : HighlightingOptions) (index : Nat) (c : Char)
    (chars : List Char) : Option Nat :=
  if opts.numbers ∧ c.isDigit then
    if numberPrevOk index chars then
      some (index + 1 +
        ((chars.drop (index + 1)).takeWhile
          (fun ch => ch = dotC || ch.isDigit)).length)
    else none
  else none

/-- `Row::highlight_str`: match `sub` at `index` and advance past it.  The
source pushes `substring.len()` (byte-count) tags; in the char-unit model
this is `sub.length`, the same advancement. -/
def highlight_str (index : Nat) (sub : List Char) (chars : List Char) :
    Option Nat :=
  if sub = [] then none
  else if matchesAt chars index sub then some (index + sub.length) else none

/-- The trailing-boundary test of `Row::highlight_keywords`: when the
candidate span is followed by a further unit
(`index < chars.len().saturating_sub(word.len())`), that unit must be a
separator. -/
def keywordBoundaryOk (index : Nat) (chars : List Char) (w : List Char) :
    Bool :=
  if index < chars.length - w.length then
    match chars[index + w.length]? with
    | some nc => is_separator nc
    | none => false   -- unreachable: the bound test puts it in range
  else true

/-- The keyword iteration of `Row::highlight_keywords`: for each keyword,
the trailing boundary must hold (else try the next keyword), then
`highlight_str` must match. -/
def keywordLoop (index : Nat) (chars : List Char) :
    List (List Char) → Option Nat
  | [] => none
  | w :: rest =>
    if keywordBoundaryOk index chars w then
      match highlight_str index w chars with
      | some j => some j
      | none => keywordLoop index chars rest
    else keywordLoop index chars rest

/-- `Row::highlight_keywords`: the unit before the candidate span (if any)
must be a separator, then try each keyword in order. -/
def highlight_keywords (index : Nat) (chars : List Char)
    (keywords : List (List Char)) : Option Nat :=
  if 0 < index then
    match chars[index - 1]? with
    | some prev =>
      if is_separator prev then keywordLoop index chars keywords else none
    | none => none   -- unreachable: the caller scans within the line
  else keywordLoop index chars keywords

/-- The short-circuit rule chain of `Row::highlight`'s scan loop (after the
multiline-comment rule): character literal, line comment, primary keywords,
secondary keywords, string, number.  Returns the new index and the tag
replicated over the consumed span. -/
def tryRules (opts : HighlightingOptions) (index : Nat) (c : Char)
    (chars : List Char) : Option (Nat × HType) :=
  match highlight_char opts index c chars with
  | some j => some (j, HType.Character)
  | none =>
    match highlight_comment opts index c chars with
    | some j => some (j, HType.Comment)
    | none =>
      match highlight_keywords index chars opts.primary_keywords with
      | some j => some (j, HType.PrimaryKeyword)
      | none =>
        match highlight_keywords index chars opts.secondary_keywords with
        | some j => some (j, HType.SecondaryKeyword)
        | none =>
          match highlight_string opts index c chars with
          | some j => some (j, HType.String)
          | none =>
            match highlight_number opts index c chars with
            | some j => some (j, HType.Number)
            | none => none

/-- The `while let Some(c) = chars.get(index)` loop of `Row::highlight`,
fuel-indexed.  Each iteration first tries the multiline-comment rule (which
keeps the open-comment flag on), then the other rules (which clear it), and
falls back to a single `None` tag.  Returns the produced tags and the final
open-comment flag.  Fuel `chars.length + 1` always suffices because each
iteration advances the index by at least one. -/
def scanLoop (opts : HighlightingOptions) (chars : List Char) :
    Nat → Nat → Bool → List HType × Bool
  | 0, _, inMl => ([], inMl)
  | fuel + 1, index, inMl =>
    match chars[index]? with
    | none => ([], inMl)
    | some c =>
      match highlight_multiline_comment opts index c chars with
      | some j =>
        let r := scanLoop opts chars fuel j true
        (List.replicate (j - index) HType.MultilineComment ++ r.1, r.2)
      | none =>
        match tryRules opts index c chars with
        | some jt =>
          let r := scanLoop opts chars fuel jt.1 false
          (List.replicate (jt.1 - index) jt.2 ++ r.1, r.2)
        | none =>
          let r := scanLoop opts chars fuel (index + 1) false
          (HType.None :: r.1, r.2)

/-- The carried-in-comment preamble of `Row::highlight`: when the line starts
inside an open multiline comment, consume through the first `*/` (or the
whole line), tagging `MultilineComment`.  Returns the start index for the
scan loop and the preamble tags. -/
def prefixInfo (s : List Char) (startWithComment : Bool) :
    Nat × List HType :=
  if startWithComment then
    let closing :=
      match subIdx s [starC, slashC] with
      | some ci => ci + 2
      | none => s.length
    (closing, List.replicate closing HType.MultilineComment)
  else (0, [])

/-- The full forward classification pass of `Row::highlight` on content `s`:
preamble then scan loop.  Returns the tag sequence and the final
open-comment flag. -/
def scanTags (opts : HighlightingOptions) (s : List Char)
    (startWithComment : Bool) : List HType × Bool :=
  let pfx := prefixInfo s startWithComment
  let r := scanLoop opts s (s.length + 1) pfx.1 startWithComment
  (pfx.2 ++ r.1, r.2)

/-- Whether the content's final two units are `*/`
(`self.string[self.string.len().saturating_sub(2)..] == "*/"` in char
units). -/
def endsML (s : List Char) : Bool :=
  s.drop (s.length - 2) = [starC, slashC]

/-- `Row::find`: restrict to the window `[at, len)` (Forward) or `[0, at)`
(Backward), search the window for the query, and map the hit back to an
absolute unit index.  In the char-unit model the byte-to-grapheme remapping
loop of the source is the identity on the window-relative hit index. -/
def Row.find (r : Row) (query : List Char) (p : Nat)
    (direction : SearchDirection) : Option Nat :=
  if r.len < p ∨ query = [] then none
  else
    let startStop :=
      match direction with
      | SearchDirection.Forward => (p, r.len)
      | SearchDirection.Backward => (0, p)
    let sub := (r.string.drop startStop.1).take (startStop.2 - startStop.1)
    let hit :=
      match direction with
      | SearchDirection.Forward => subIdx sub query
      | SearchDirection.Backward => subIdxLast sub query
    match hit with
    | some k => some (startStop.1 + k)
    | none => none

/-- Set `n` tags to `Match` starting at `lo`
(the `for i in lo..hi { self.highlighting[i] = Match }` loop, with
`n = hi - lo`). -/
def setMatchFrom (tags : List HType) (lo n : Nat) : List HType :=
  match n with
  | 0 => tags
  | m + 1 => setMatchFrom (tags.set lo HType.Match) (lo + 1) m

/-- The occurrence loop of `Row::highlight_match`, fuel-indexed.  The source
retags `index.saturating_add(search_match)..next_index`; `checked_add`
cannot overflow in the `Nat` model, so the overflow break is absent.  Fuel
`r.len + 1` suffices because `index` strictly increases and `find` fails
once `index` passes `r.len`. -/
def matchLoop (r : Row) (w : List Char) :
    Nat → Nat → List HType → List HType
  | 0, _, tags => tags
  | fuel + 1, index, tags =>
    match Row.find r w index SearchDirection.Forward with
    | none => tags
    | some m =>
      let next := m + w.length
      matchLoop r w fuel next
        (setMatchFrom tags (index + m) (next - (index + m)))

/-- `Row::highlight_match`: with a non-empty search word, retag forward
occurrences as `Match` (per the source's index arithmetic). -/
def highlightMatch (r : Row) (word : Option (List Char))
    (tags : List HType) : List HType :=
  match word with
  | none => tags
  | some w => if w = [] then tags else matchLoop r w (r.len + 1) 0 tags

/-- `Row::highlight` (the `Highlighter` impl in src/row.rs).  A fresh
(`is_highlighted`) row scanned with no search word short-circuits: it
returns true when its last tag is `MultilineComment`, its content is longer
than one unit, and the content ends with `*/`; otherwise false.  Otherwise
the row is rescanned: preamble plus rule loop, then the search-match pass;
if the scan ends inside an open multiline comment and the content does not
end with `*/`, it reports still-open (true) without refreshing
`is_highlighted`; otherwise it caches (sets `is_highlighted`) and returns
false. -/
def Row.highlight (r : Row) (opts : HighlightingOptions)
    (word : Option (List Char)) (startWithComment : Bool) : Row × Bool :=
  if r.is_highlighted = true ∧ word = none then
    match r.highlighting.getLast? with
    | some hl =>
      if hl = HType.MultilineComment ∧ 1 < r.string.length ∧
          endsML r.string = true
      then (r, true) else (r, false)
    | none => (r, false)
  else
    let scanned := scanTags opts r.string startWithComment
    let hl := highlightMatch r word scanned.1
    if scanned.2 = true ∧ endsML r.string = false then
      ({ r with highlighting := hl }, true)
    else
      ({ r with highlighting := hl, is_highlighted := true }, false)

/-- The Rust-profile primary keyword list from `FileType::from` in
src/filetype.rs. -/
def rustPrimaryKeywords : List (List Char) :=
  (["as", "break", "const", "continue", "crate", "else", "enum", "extern",
    "false", "fn", "for", "if", "impl", "in", "let", "loop", "match", "mod",
    "move", "mut", "pub", "ref", "return", "self", "Self", "static",
    "struct", "super", "trait", "true", "type", "unsafe", "use", "where",
    "while", "dyn", "abstract", "become", "box", "do", "final", "macro",
    "override", "priv", "typeof", "unsized", "virtual", "yield", "async",
    "await", "try"]).map (fun s => s.toList)

/-- The Rust-profile secondary keyword list from `FileType::from`. -/
def rustSecondaryKeywords : List (List Char) :=
  (["bool", "char", "i8", "i16", "i32", "i64", "isize", "u8", "u16", "u32",
    "u64", "usize", "f32", "f64"]).map (fun s => s.toList)

/-- The Rust language profile's options (`FileType::from` on a `.rs`
name). -/
def rustHighlightingOptions : HighlightingOptions :=
  ⟨true, true, true, true, true, rustPrimaryKeywords, rustSecondaryKeywords⟩

/-- The default profile (`HighlightingOptions::default()`): every rule off,
empty keyword lists. -/
def defaultHighlightingOptions : HighlightingOptions :=
  ⟨false, false, false, false, false, [], []⟩

/-- `FileType::default()`. -/
def fileTypeDefault : FileType :=
  ⟨"No filetype".toList, defaultHighlightingOptions⟩

/-- `FileType::from(&str)`: the Rust profile for names ending in `.rs`, the
default profile otherwise. -/
def FileType.ofName (fn : List Char) : FileType :=
  if (".rs".toList).isSuffixOf fn then ⟨"Rust".toList, rustHighlightingOptions⟩
  else fileTypeDefault

/-- `Document::unhighlight_rows`'s `iter_mut().skip(start)` pass: clear the
freshness flag of every row from index `k` on. -/
def unhighlightFrom : List Row → Nat → List Row
  | [], _ => []
  | r :: rest, 0 =>
    { r with is_highlighted := false } :: unhighlightFrom rest 0
  | r :: rest, k + 1 => r :: unhighlightFrom rest k

/-- `Document::unhighlight_rows`: clear freshness from
`start.saturating_sub(1)` through the end of the buffer. -/
def Document.unhighlight_rows (d : Document) (start : Nat) : Document :=
  { d with rows := unhighlightFrom d.rows (start - 1) }

/-- `Vec::insert` on the row list: place the row before position `n`,
shifting the rest.  (Rust panics for `n` past the end; the call site
guarantees `n ≤ length`, and the model then appends at the end.) -/
def insertAt : Nat → Row → List Row → List Row
  | 0, r, l => r :: l
  | _ + 1, r, [] => [r]
  | n + 1, r, x :: xs => x :: insertAt n r xs

/-- `Document::insert_newline`: at the end-of-buffer position push an empty
row, otherwise split the current row and insert the suffix right after
it. -/
def Document.insert_newline (d : Document) (p : Position) : Document :=
  if p.y = d.rows.length then { d with rows := d.rows ++ [rowDefault] }
  else
    let pr := Row.split (d.rows.getD p.y rowDefault) p.x
    { d with rows := insertAt (p.y + 1) pr.2 (d.rows.set p.y pr.1) }

/-- `Document::insert`: ignore positions past the line count; otherwise mark
dirty, dispatch on newline / append-new-row / in-row insert, and clear
freshness from `p.y - 1` on. -/
def Document.insert (d : Document) (p : Position) (c : Char) : Document :=
  if d.rows.length < p.y then d
  else
    let d1 : Document := { d with dirty := true }
    let d2 : Document :=
      if c = newlineC then d1.insert_newline p
      else if p.y = d1.rows.length then
        { d1 with rows := d1.rows ++ [Row.insert rowDefault 0 c] }
      else
        { d1 with
          rows := d1.rows.set p.y
            (Row.insert (d1.rows.getD p.y rowDefault) p.x c) }
    { d2 with rows := unhighlightFrom d2.rows (p.y - 1) }

/-- `Document::delete`: ignore out-of-range rows; otherwise mark dirty, and
either merge the next row into this one (column at line length with a
following row) or delete in-row, then clear freshness from `p.y - 1` on. -/
def Document.delete (d : Document) (p : Position) : Document :=
  if d.rows.length ≤ p.y then d
  else
    let d1 : Document := { d with dirty := true }
    let d2 : Document :=
      if p.x = (d1.rows.getD p.y rowDefault).len ∧
          p.y + 1 < d1.rows.length then
        let nextRow := d1.rows.getD (p.y + 1) rowDefault
        let rows1 := d1.rows.eraseIdx (p.y + 1)
        { d1 with
          rows := rows1.set p.y (Row.append (rows1.getD p.y rowDefault)
            nextRow) }
      else
        { d1 with
          rows := d1.rows.set p.y
            (Row.delete (d1.rows.getD p.y rowDefault) p.x) }
    { d2 with rows := unhighlightFrom d2.rows (p.y - 1) }

/-- `Document::save`: with no backing file name the write block is skipped
and the call returns `Ok(())` with the document untouched.  With a file
name, the I/O is abstracted: `createOk` tells whether `File::create`
succeeds (its failure propagates before any state change), the file type is
then re-resolved from the name, `writeOk` tells whether all row writes
succeed, and on full success the dirty flag is cleared.  The boolean result
is true for `Ok`. -/
def Document.save (d : Document) (createOk writeOk : Bool) :
    Document × Bool :=
  match d.file_name with
  | none => (d, true)
  | some fn =>
    if createOk then
      let d1 : Document := { d with file_type := FileType.ofName fn }
      if writeOk then ({ d1 with dirty := false }, true) else (d1, false)
    else (d, false)

/-! ### Lemmas about the edit walks -/

/-- The count produced by `insertWalk` is the length of the produced
content. -/
theorem insertWalk_snd (c : Char) :
    ∀ (p : Nat) (l : List Char), (insertWalk c p l).2 = (insertWalk c p l).1.length := by
  intro p l
  induction l generalizing p with
  | nil => simp [insertWalk]
  | cons g rest ih =>
    cases p with
    | zero => simp [insertWalk]
    | succ n => simp [insertWalk, ih]

/-- Inserting strictly inside the content grows the count by one. -/
theorem insertWalk_len_lt (c : Char) :
    ∀ (p : Nat) (l : List Char), p < l.length →
      (insertWalk c p l).2 = l.length + 1 := by
  intro p l
  induction l generalizing p with
  | nil => intro h; simp at h
  | cons g rest ih =>
    cases p with
    | zero => intro _; simp [insertWalk]
    | succ n =>
      intro h
      simp only [insertWalk]
      rw [ih n (by simpa using h)]
      simp

/-- The count produced by `deleteWalk` is the length of the produced
content. -/
theorem deleteWalk_snd :
    ∀ (p : Nat) (l : List Char), (deleteWalk p l).2 = (deleteWalk p l).1.length := by
  intro p l
  induction l generalizing p with
  | nil => simp [deleteWalk]
  | cons g rest ih =>
    cases p with
    | zero => simp [deleteWalk]
    | succ n => simp [deleteWalk, ih]

/-- Deleting at the position just spliced restores the original walk. -/
theorem deleteWalk_insertWalk (c : Char) :
    ∀ (p : Nat) (l : List Char), p < l.length →
      deleteWalk p (insertWalk c p l).1 = (l, l.length) := by
  intro p l
  induction l generalizing p with
  | nil => intro h; simp at h
  | cons g rest ih =>
    cases p with
    | zero => intro _; simp [insertWalk, deleteWalk]
    | succ n =>
      intro h
      simp only [insertWalk, deleteWalk]
      rw [ih n (by simpa using h)]
      simp

/-- Deleting at the old length after a push at the end restores the
original content. -/
theorem deleteWalk_concat (c : Char) :
    ∀ (l : List Char), deleteWalk l.length (l ++ [c]) = (l, l.length) := by
  intro l
  induction l with
  | nil => rfl
  | cons g rest ih =>
    show deleteWalk (rest.length + 1) (g :: (rest ++ [c])) = (g :: rest, rest.length + 1)
    simp only [deleteWalk]
    rw [ih]

/-- The prefix count of `splitWalk` is the prefix length. -/
theorem splitWalk_fst_len :
    ∀ (p : Nat) (l : List Char), (splitWalk p l).1.2 = (splitWalk p l).1.1.length := by
  intro p l
  induction l generalizing p with
  | nil => simp [splitWalk]
  | cons g rest ih =>
    cases p with
    | zero => simp [splitWalk]
    | succ n => simp [splitWalk, ih]

/-- The suffix count of `splitWalk` is the suffix length. -/
theorem splitWalk_snd_len :
    ∀ (p : Nat) (l : List Char), (splitWalk p l).2.2 = (splitWalk p l).2.1.length := by
  intro p l
  induction l generalizing p with
  | nil => simp [splitWalk]
  | cons g rest ih =>
    cases p with
    | zero => simp [splitWalk]
    | succ n => simp [splitWalk, ih]

/-- `splitWalk` partitions the content: prefix ++ suffix is the original. -/
theorem splitWalk_append :
    ∀ (p : Nat) (l : List Char), (splitWalk p l).1.1 ++ (splitWalk p l).2.1 = l := by
  intro p l
  induction l generalizing p with
  | nil => simp [splitWalk]
  | cons g rest ih =>
    cases p with
    | zero => simp [splitWalk]
    | succ n => simp [splitWalk, ih]

/-- The two `splitWalk` counts add up to the original length. -/
theorem splitWalk_count :
    ∀ (p : Nat) (l : List Char), (splitWalk p l).1.2 + (splitWalk p l).2.2 = l.length := by
  intro p l
  induction l generalizing p with
  | nil => simp [splitWalk]
  | cons g rest ih =>
    cases p with
    | zero => simp [splitWalk]
    | succ n =>
      simp only [splitWalk, List.length_cons]
      have := ih n
      omega


/-! ### Claims C3, C4, C5: the Line edit operations -/

/-- C3: every Line operation — construction from text, insert (including the
append path), delete, append of another line, split — preserves the
invariant that the cached length equals the unit count of the content
(grapheme clusters in the source's accounting; the uniform char unit
here). -/
theorem claim_C3 (s : List Char) (r other : Row) (p : Nat) (c : Char)
    (hr : r.len = r.string.length) (ho : other.len = other.string.length) :
    (Row.fromText s).len = (Row.fromText s).string.length ∧
    (Row.insert r p c).len = (Row.insert r p c).string.length ∧
    (Row.delete r p).len = (Row.delete r p).string.length ∧
    (Row.append r other).len = (Row.append r other).string.length ∧
    (Row.split r p).1.len = (Row.split r p).1.string.length ∧
    (Row.split r p).2.len = (Row.split r p).2.string.length := by
  refine ⟨rfl, ?_, ?_, ?_, ?_, ?_⟩
  · unfold Row.insert
    split
    · simpa using hr
    · simpa using insertWalk_snd c p r.string
  · unfold Row.delete
    split
    · exact hr
    · simpa using deleteWalk_snd p r.string
  · simp [Row.append, hr, ho]
  · simpa [Row.split] using splitWalk_fst_len p r.string
  · simpa [Row.split] using splitWalk_snd_len p r.string

/-- C3 witness: the preservation statement instantiated at concrete rows. -/
theorem claim_C3_witness :
    ((Row.fromText (("ab").toList)).len = (Row.fromText (("ab").toList)).string.length ∧
     (Row.fromText (("c").toList)).len = (Row.fromText (("c").toList)).string.length) ∧
    ((Row.fromText (("x").toList)).len = (Row.fromText (("x").toList)).string.length ∧
     (Row.insert (Row.fromText (("ab").toList)) 1 'z').len =
       (Row.insert (Row.fromText (("ab").toList)) 1 'z').string.length ∧
     (Row.delete (Row.fromText (("ab").toList)) 1).len =
       (Row.delete (Row.fromText (("ab").toList)) 1).string.length ∧
     (Row.append (Row.fromText (("ab").toList)) (Row.fromText (("c").toList))).len =
       (Row.append (Row.fromText (("ab").toList)) (Row.fromText (("c").toList))).string.length ∧
     (Row.split (Row.fromText (("ab").toList)) 1).1.len =
       (Row.split (Row.fromText (("ab").toList)) 1).1.string.length ∧
     (Row.split (Row.fromText (("ab").toList)) 1).2.len =
       (Row.split (Row.fromText (("ab").toList)) 1).2.string.length) :=
  ⟨⟨by decide, by decide⟩,
   claim_C3 (("x").toList) (Row.fromText (("ab").toList))
     (Row.fromText (("c").toList)) 1 'z' (by decide) (by decide)⟩

/-- C4 counterexample: for the two-unit line "ab", inserting at position 5
takes the append path (the character lands at the end), but deleting at
position 5 is a no-op, so the original content is not restored.  This
refutes the claim's "every position p". -/
theorem claim_C4_counterexample :
    (Row.delete (Row.insert (Row.fromText (("ab").toList)) 5 'x') 5).string ≠
      (Row.fromText (("ab").toList)).string := by
  decide

/-- C4 amended: on a row whose cached length matches its content, inserting
unit `u` at a position `p ≤ length` and then deleting at `p` restores the
original content and length (for `p` beyond the length the insert appends at
the end but the delete is a no-op, so restoration fails). -/
theorem claim_C4_amended (r : Row) (p : Nat) (c : Char)
    (hr : r.len = r.string.length) (hp : p ≤ r.len) :
    (Row.delete (Row.insert r p c) p).string = r.string ∧
    (Row.delete (Row.insert r p c) p).len = r.len := by
  rcases Nat.lt_or_ge p r.len with hlt | hge
  · have hpl : p < r.string.length := by omega
    unfold Row.insert
    rw [if_neg (by omega)]
    unfold Row.delete
    simp only
    rw [if_neg (by rw [insertWalk_len_lt c p r.string hpl]; omega)]
    rw [deleteWalk_insertWalk c p r.string hpl]
    exact ⟨rfl, hr.symm⟩
  · have hpe : p = r.len := by omega
    unfold Row.insert
    rw [if_pos (by omega)]
    unfold Row.delete
    simp only
    rw [if_neg (by omega)]
    have : p = r.string.length := by omega
    subst this
    rw [deleteWalk_concat c r.string]
    exact ⟨rfl, hr.symm⟩

/-- C4 witness: insert-then-delete at position 1 of the line "ab" restores
it. -/
theorem claim_C4_witness :
    ((Row.fromText (("ab").toList)).len = (Row.fromText (("ab").toList)).string.length ∧
     1 ≤ (Row.fromText (("ab").toList)).len) ∧
    ((Row.delete (Row.insert (Row.fromText (("ab").toList)) 1 'z') 1).string =
       (Row.fromText (("ab").toList)).string ∧
     (Row.delete (Row.insert (Row.fromText (("ab").toList)) 1 'z') 1).len =
       (Row.fromText (("ab").toList)).len) :=
  ⟨⟨by decide, by decide⟩,
   claim_C4_amended (Row.fromText (("ab").toList)) 1 'z' (by decide) (by decide)⟩

/-- C5: on a row whose cached length matches its content, splitting at any
valid point `k ≤ length` and appending the returned suffix back onto the
mutated prefix reconstructs the original content and length. -/
theorem claim_C5 (r : Row) (k : Nat)
    (hr : r.len = r.string.length) (hk : k ≤ r.len) :
    (Row.append (Row.split r k).1 (Row.split r k).2).string = r.string ∧
    (Row.append (Row.split r k).1 (Row.split r k).2).len = r.len := by
  constructor
  · simpa [Row.append, Row.split] using splitWalk_append k r.string
  · have h := splitWalk_count k r.string
    simp only [Row.append, Row.split]
    omega

/-- C5 witness: splitting "ab" at 1 and appending the suffix back restores
it. -/
theorem claim_C5_witness :
    ((Row.fromText (("ab").toList)).len = (Row.fromText (("ab").toList)).string.length ∧
     1 ≤ (Row.fromText (("ab").toList)).len) ∧
    ((Row.append (Row.split (Row.fromText (("ab").toList)) 1).1
        (Row.split (Row.fromText (("ab").toList)) 1).2).string =
       (Row.fromText (("ab").toList)).string ∧
     (Row.append (Row.split (Row.fromText (("ab").toList)) 1).1
        (Row.split (Row.fromText (("ab").toList)) 1).2).len =
       (Row.fromText (("ab").toList)).len) :=
  ⟨⟨by decide, by decide⟩,
   claim_C5 (Row.fromText (("ab").toList)) 1 (by decide) (by decide)⟩

/-! ### Lemmas about the Buffer operations -/

/-- Clearing freshness flags does not touch any line's content. -/
theorem unhighlightFrom_map_string :
    ∀ (l : List Row) (k : Nat),
      (unhighlightFrom l k).map Row.string = l.map Row.string := by
  intro l
  induction l with
  | nil => intro k; rfl
  | cons r rest ih =>
    intro k
    cases k with
    | zero => simp [unhighlightFrom, ih 0]
    | succ n => simp [unhighlightFrom, ih n]

/-- Clearing freshness flags preserves the row count. -/
theorem unhighlightFrom_length :
    ∀ (l : List Row) (k : Nat), (unhighlightFrom l k).length = l.length := by
  intro l
  induction l with
  | nil => intro k; rfl
  | cons r rest ih =>
    intro k
    cases k with
    | zero => simp [unhighlightFrom, ih 0]
    | succ n => simp [unhighlightFrom, ih n]

/-- Rows before the clearing start index are untouched. -/
theorem unhighlightFrom_getD_lt :
    ∀ (l : List Row) (k i : Nat), i < k →
      (unhighlightFrom l k).getD i rowDefault = l.getD i rowDefault := by
  intro l
  induction l with
  | nil => intro k i _; rfl
  | cons r rest ih =>
    intro k i hik
    cases k with
    | zero => omega
    | succ n =>
      cases i with
      | zero => rfl
      | succ j =>
        simp only [unhighlightFrom, List.getD_cons_succ]
        exact ih n j (by omega)

/-- Every row from the clearing start index on (within the list) ends up
with a cleared freshness flag. -/
theorem unhighlightFrom_getD_flag :
    ∀ (l : List Row) (k i : Nat), k ≤ i → i < l.length →
      ((unhighlightFrom l k).getD i rowDefault).is_highlighted = false := by
  intro l
  induction l with
  | nil => intro k i _ h; simp at h
  | cons r rest ih =>
    intro k i hki hil
    cases k with
    | zero =>
      cases i with
      | zero => rfl
      | succ j =>
        simp only [unhighlightFrom, List.getD_cons_succ]
        exact ih 0 j (by omega) (by simpa using hil)
    | succ n =>
      cases i with
      | zero => omega
      | succ j =>
        simp only [unhighlightFrom, List.getD_cons_succ]
        exact ih n j (by omega) (by simpa using hil)

/-- `List.set` leaves other positions untouched (`getD` form). -/
theorem set_getD_ne :
    ∀ (l : List Row) (n : Nat) (a : Row) (i : Nat), i ≠ n →
      (l.set n a).getD i rowDefault = l.getD i rowDefault := by
  intro l
  induction l with
  | nil => intro n a i _; rfl
  | cons r rest ih =>
    intro n a i hne
    cases n with
    | zero =>
      cases i with
      | zero => omega
      | succ j => rfl
    | succ m =>
      cases i with
      | zero => rfl
      | succ j =>
        simp only [List.set, List.getD_cons_succ]
        exact ih m a j (by omega)

/-- Writing back the element already at an in-range position is the
identity. -/
theorem set_getD_self :
    ∀ (l : List Row) (n : Nat), n < l.length →
      l.set n (l.getD n rowDefault) = l := by
  intro l
  induction l with
  | nil => intro n h; simp at h
  | cons r rest ih =>
    intro n h
    cases n with
    | zero => rfl
    | succ m =>
      simp only [List.set, List.getD_cons_succ]
      rw [ih m (by simpa using h)]

/-- `insertAt` leaves positions before the insertion point untouched. -/
theorem insertAt_getD_lt :
    ∀ (n : Nat) (r : Row) (l : List Row) (i : Nat), i < n → n ≤ l.length →
      (insertAt n r l).getD i rowDefault = l.getD i rowDefault := by
  intro n
  induction n with
  | zero => intro r l i h _; omega
  | succ m ih =>
    intro r l i hi hn
    cases l with
    | nil => simp at hn
    | cons x xs =>
      cases i with
      | zero => rfl
      | succ j =>
        simp only [insertAt, List.getD_cons_succ]
        exact ih r xs j (by omega) (by simpa using hn)

/-! ### Claim C7: Buffer delete at a malformed column -/

/-- C7 counterexample: deleting at row 0, column 5 of a one-line buffer
"ab" (column past the line's length) leaves the content alone but flips the
dirty flag from false to true, so the buffer state is not unchanged. -/
theorem claim_C7_counterexample :
    (Document.delete ⟨[Row.fromText (("ab").toList)], none, false, fileTypeDefault⟩ ⟨5, 0⟩).dirty ≠
      (⟨[Row.fromText (("ab").toList)], none, false, fileTypeDefault⟩ : Document).dirty := by
  decide

/-- C7 amended: a Buffer delete at a position whose row is in range but
whose column exceeds that row's length changes no line's content, but it
does set the dirty flag to true (the source marks dirty before dispatching;
it also clears freshness flags from `max(y - 1, 0)` on). -/
theorem claim_C7_amended (d : Document) (p : Position)
    (hy : p.y < d.rows.length)
    (hx : (d.rows.getD p.y rowDefault).len < p.x) :
    (Document.delete d p).rows.map Row.string = d.rows.map Row.string ∧
    (Document.delete d p).dirty = true := by
  have hnoop : Row.delete (d.rows.getD p.y rowDefault) p.x = d.rows.getD p.y rowDefault := by
    unfold Row.delete
    rw [if_pos (by omega)]
  have hred : Document.delete d p = { d with dirty := true, rows := unhighlightFrom (d.rows.set p.y (Row.delete (d.rows.getD p.y rowDefault) p.x)) (p.y - 1) } := by
    simp only [Document.delete]
    rw [if_neg (by omega), if_neg (by intro hc; exact absurd hc.1 (by omega))]
  rw [hred]
  rw [hnoop, set_getD_self d.rows p.y hy]
  exact ⟨unhighlightFrom_map_string d.rows (p.y - 1), rfl⟩

/-- C7 witness: the amended statement at the concrete one-line buffer
"ab", deleting at column 5 of row 0. -/
theorem claim_C7_witness :
    (0 < (⟨[Row.fromText (("ab").toList)], none, false, fileTypeDefault⟩ : Document).rows.length ∧
     ((⟨[Row.fromText (("ab").toList)], none, false, fileTypeDefault⟩ : Document).rows.getD 0 rowDefault).len < 5) ∧
    ((Document.delete ⟨[Row.fromText (("ab").toList)], none, false, fileTypeDefault⟩ ⟨5, 0⟩).rows.map Row.string =
       (⟨[Row.fromText (("ab").toList)], none, false, fileTypeDefault⟩ : Document).rows.map Row.string ∧
     (Document.delete ⟨[Row.fromText (("ab").toList)], none, false, fileTypeDefault⟩ ⟨5, 0⟩).dirty = true) :=
  ⟨⟨by decide, by decide⟩,
   claim_C7_amended ⟨[Row.fromText (("ab").toList)], none, false, fileTypeDefault⟩ ⟨5, 0⟩
     (by decide) (by decide)⟩

/-! ### Claim C8: frame effect of Buffer insert -/

/-- C8: after a Buffer insert at a valid position (row index at most the
line count) the buffer is dirty, every line from index `max(y - 1, 0)` on
has its freshness flag cleared, and every line below that index keeps its
content and freshness flag. -/
theorem claim_C8 (d : Document) (p : Position) (c : Char)
    (hy : p.y ≤ d.rows.length) :
    (Document.insert d p c).dirty = true ∧
    (∀ i, p.y - 1 ≤ i → i < (Document.insert d p c).rows.length →
      ((Document.insert d p c).rows.getD i rowDefault).is_highlighted = false) ∧
    (∀ i, i < p.y - 1 →
      ((Document.insert d p c).rows.getD i rowDefault).string = (d.rows.getD i rowDefault).string ∧
      ((Document.insert d p c).rows.getD i rowDefault).is_highlighted = (d.rows.getD i rowDefault).is_highlighted) := by
  obtain ⟨R, hR, hRlt⟩ :
      ∃ R, Document.insert d p c = { d with dirty := true, rows := unhighlightFrom R (p.y - 1) } ∧
        ∀ i, i < p.y - 1 → R.getD i rowDefault = d.rows.getD i rowDefault := by
    by_cases hc : c = newlineC
    · by_cases hyl : p.y = d.rows.length
      · refine ⟨d.rows ++ [rowDefault], ?_, ?_⟩
        · simp only [Document.insert, Document.insert_newline]
          rw [if_neg (by omega), if_pos hc, if_pos hyl]
        · intro i hi
          exact List.getD_append _ _ _ _ (by omega)
      · refine ⟨insertAt (p.y + 1) (Row.split (d.rows.getD p.y rowDefault) p.x).2 (d.rows.set p.y (Row.split (d.rows.getD p.y rowDefault) p.x).1), ?_, ?_⟩
        · simp only [Document.insert, Document.insert_newline]
          rw [if_neg (by omega), if_pos hc, if_neg hyl]
        · intro i hi
          rw [insertAt_getD_lt _ _ _ _ (by omega) (by simp; omega)]
          exact set_getD_ne _ _ _ _ (by omega)
    · by_cases hyl : p.y = d.rows.length
      · refine ⟨d.rows ++ [Row.insert rowDefault 0 c], ?_, ?_⟩
        · simp only [Document.insert]
          rw [if_neg (by omega), if_neg hc, if_pos hyl]
        · intro i hi
          exact List.getD_append _ _ _ _ (by omega)
      · refine ⟨d.rows.set p.y (Row.insert (d.rows.getD p.y rowDefault) p.x c), ?_, ?_⟩
        · simp only [Document.insert]
          rw [if_neg (by omega), if_neg hc, if_neg hyl]
        · intro i hi
          exact set_getD_ne _ _ _ _ (by omega)
  refine ⟨by rw [hR], ?_, ?_⟩
  · intro i hge hlen
    rw [hR] at hlen ⊢
    simp only [unhighlightFrom_length] at hlen
    exact unhighlightFrom_getD_flag R (p.y - 1) i hge hlen
  · intro i hlt
    rw [hR]
    simp only
    rw [unhighlightFrom_getD_lt R (p.y - 1) i hlt, hRlt i hlt]
    exact ⟨rfl, rfl⟩

/-- C8 witness: inserting at the end position of a one-line buffer marks it
dirty and clears the line's freshness flag (the hypothesis `y ≤ line count`
and two binder-free consequences of the claim, obtained from it). -/
theorem claim_C8_witness :
    (1 ≤ (⟨[Row.fromText (("ab").toList)], none, false, fileTypeDefault⟩ : Document).rows.length) ∧
    (Document.insert ⟨[Row.fromText (("ab").toList)], none, false, fileTypeDefault⟩ ⟨1, 0⟩ 'z').dirty = true ∧
    ((Document.insert ⟨[Row.fromText (("ab").toList)], none, false, fileTypeDefault⟩ ⟨1, 0⟩ 'z').rows.getD 0 rowDefault).is_highlighted = false :=
  ⟨by decide,
   (claim_C8 ⟨[Row.fromText (("ab").toList)], none, false, fileTypeDefault⟩ ⟨1, 0⟩ 'z' (by decide)).1,
   (claim_C8 ⟨[Row.fromText (("ab").toList)], none, false, fileTypeDefault⟩ ⟨1, 0⟩ 'z' (by decide)).2.1
     0 (by decide) (by decide)⟩

/-! ### Lemmas for the classification scan (claim C1) -/


theorem getElem_some_lt {α : Type} {l : List α} {i : Nat} {a : α}
    (h : l[i]? = some a) : i < l.length := by
  by_contra hc
  rw [List.getElem?_eq_none (by omega)] at h
  cases h

theorem isPrefixOf_length_le {l₁ l₂ : List Char}
    (h : l₁.isPrefixOf l₂ = true) : l₁.length ≤ l₂.length :=
  (List.isPrefixOf_iff_prefix.mp h).length_le

theorem subIdx_bound :
    ∀ (l pat : List Char) (k : Nat), subIdx l pat = some k →
      k + pat.length ≤ l.length := by
  intro l
  induction l with
  | nil =>
    intro pat k h
    simp only [subIdx] at h
    split at h
    · injection h with h0
      subst h0
      simp [*]
    · cases h
  | cons x rest ih =>
    intro pat k h
    simp only [subIdx] at h
    split at h
    · injection h with h0
      subst h0
      rename_i hpre
      have := isPrefixOf_length_le hpre
      simpa using this
    · cases hs : subIdx rest pat with
      | none => rw [hs] at h; cases h
      | some q =>
        rw [hs] at h
        have h2 : some (q + 1) = some k := h
        injection h2 with h0
        have := ih pat q hs
        simp only [List.length_cons]
        omega

theorem highlight_char_bounds (opts : HighlightingOptions) (i : Nat) (c : Char)
    (chars : List Char) (j : Nat) (h : highlight_char opts i c chars = some j) :
    i < j ∧ j ≤ chars.length := by
  unfold highlight_char at h
  split at h
  · cases hn : chars[i + 1]? with
    | none => rw [hn] at h; cases h
    | some next =>
      rw [hn] at h
      have h1 : (match chars[(if next = bslashC then i + 3 else i + 2)]? with
        | some cc => if cc = apostC then some ((if next = bslashC then i + 3 else i + 2) + 1) else none
        | none => none) = some j := h
      cases hc2 : chars[(if next = bslashC then i + 3 else i + 2)]? with
      | none => rw [hc2] at h1; cases h1
      | some cc =>
        rw [hc2] at h1
        have h2 : (if cc = apostC then some ((if next = bslashC then i + 3 else i + 2) + 1) else none) = some j := h1
        split at h2
        · injection h2 with hj
          have hlt := getElem_some_lt hc2
          subst hj
          rcases Decidable.em (next = bslashC) with hb | hb
          · simp only [if_pos hb] at hlt ⊢
            omega
          · simp only [if_neg hb] at hlt ⊢
            omega
        · cases h2
  · cases h

theorem matchesAt_bound (chars : List Char) :
    ∀ (w : List Char) (i : Nat), w ≠ [] → matchesAt chars i w = true →
      i + w.length ≤ chars.length := by
  intro w
  induction w with
  | nil => intro i hne _; exact absurd rfl hne
  | cons c rest ih =>
    intro i _ hm
    simp only [matchesAt] at hm
    cases hg : chars[i]? with
    | none => rw [hg] at hm; cases hm
    | some ch =>
      rw [hg] at hm
      have hm2 : (ch = c && matchesAt chars (i + 1) rest) = true := hm
      rw [Bool.and_eq_true] at hm2
      have hi := getElem_some_lt hg
      rcases hm2 with ⟨_, hrest⟩
      by_cases hr : rest = []
      · subst hr
        simp only [List.length_cons, List.length_nil]
        omega
      · have := ih (i + 1) hr hrest
        simp only [List.length_cons]
        omega

theorem highlight_str_bounds (i : Nat) (w chars : List Char) (j : Nat)
    (h : highlight_str i w chars = some j) : i < j ∧ j ≤ chars.length := by
  unfold highlight_str at h
  split at h
  · cases h
  · split at h
    · injection h with hj
      subst hj
      rename_i hne hm
      have hb := matchesAt_bound chars w i hne hm
      have : w.length ≠ 0 := fun h0 => hne (List.eq_nil_of_length_eq_zero h0)
      omega
    · cases h

theorem keywordLoop_bounds (i : Nat) (chars : List Char) :
    ∀ (kws : List (List Char)) (j : Nat), keywordLoop i chars kws = some j →
      i < j ∧ j ≤ chars.length := by
  intro kws
  induction kws with
  | nil => intro j h; cases h
  | cons w rest ih =>
    intro j h
    simp only [keywordLoop] at h
    split at h
    · cases hs : highlight_str i w chars with
      | none =>
        rw [hs] at h
        have h2 : keywordLoop i chars rest = some j := h
        exact ih j h2
      | some q =>
        rw [hs] at h
        have h2 : some q = some j := h
        injection h2 with hj
        subst hj
        exact highlight_str_bounds i w chars q hs
    · exact ih j h

theorem highlight_keywords_bounds (i : Nat) (chars : List Char)
    (kws : List (List Char)) (j : Nat)
    (h : highlight_keywords i chars kws = some j) :
    i < j ∧ j ≤ chars.length := by
  unfold highlight_keywords at h
  split at h
  · cases hg : chars[i - 1]? with
    | none => rw [hg] at h; cases h
    | some prev =>
      rw [hg] at h
      have h2 : (if is_separator prev = true then keywordLoop i chars kws else none) = some j := h
      split at h2
      · exact keywordLoop_bounds i chars kws j h2
      · cases h2
  · exact keywordLoop_bounds i chars kws j h

theorem highlight_comment_bounds (opts : HighlightingOptions) (i : Nat)
    (c : Char) (chars : List Char) (j : Nat)
    (h : highlight_comment opts i c chars = some j) :
    i < j ∧ j ≤ chars.length := by
  unfold highlight_comment at h
  split at h
  · cases hn : chars[i + 1]? with
    | none => rw [hn] at h; cases h
    | some next =>
      rw [hn] at h
      have h2 : (if next = slashC then some chars.length else none) = some j := h
      split at h2
      · injection h2 with hj
        subst hj
        rename_i hcond _
        exact ⟨hcond.2.2, Nat.le_refl _⟩
      · cases h2
  · cases h

theorem highlight_multiline_comment_bounds (opts : HighlightingOptions)
    (i : Nat) (c : Char) (chars : List Char) (j : Nat)
    (h : highlight_multiline_comment opts i c chars = some j) :
    i < j ∧ j ≤ chars.length := by
  unfold highlight_multiline_comment at h
  split at h
  · cases hn : chars[i + 1]? with
    | none => rw [hn] at h; cases h
    | some next =>
      rw [hn] at h
      have h2 : (if next = starC then some (match subIdx (chars.drop (i + 2)) [starC, slashC] with | some ci => i + ci + 4 | none => chars.length) else none) = some j := h
      split at h2
      · injection h2 with hj
        have hi1 := getElem_some_lt hn
        cases hs : subIdx (chars.drop (i + 2)) [starC, slashC] with
        | none =>
          rw [hs] at hj
          have hj2 : chars.length = j := hj
          rename_i hcond _
          have hic := hcond.2.2
          omega
        | some ci =>
          rw [hs] at hj
          have hj2 : i + ci + 4 = j := hj
          have hb := subIdx_bound (chars.drop (i + 2)) [starC, slashC] ci hs
          rw [List.length_drop] at hb
          simp only [List.length_cons, List.length_nil] at hb
          omega
      · cases h2
  · cases h

theorem highlight_string_bounds (opts : HighlightingOptions) (i : Nat)
    (c : Char) (chars : List Char) (j : Nat) (hi : i < chars.length)
    (h : highlight_string opts i c chars = some j) :
    i < j ∧ j ≤ chars.length + 1 := by
  unfold highlight_string at h
  split at h
  · injection h with hj
    subst hj
    have ht : ((chars.drop (i + 1)).takeWhile (fun ch => ch ≠ quoteC)).length ≤ (chars.drop (i + 1)).length :=
      List.Sublist.length_le (List.takeWhile_sublist _)
    rw [List.length_drop] at ht
    omega
  · cases h

theorem highlight_number_bounds (opts : HighlightingOptions) (i : Nat)
    (c : Char) (chars : List Char) (j : Nat) (hi : i < chars.length)
    (h : highlight_number opts i c chars = some j) :
    i < j ∧ j ≤ chars.length := by
  unfold highlight_number at h
  split at h
  · split at h
    · injection h with hj
      subst hj
      have ht : ((chars.drop (i + 1)).takeWhile (fun ch => ch = dotC || ch.isDigit)).length ≤ (chars.drop (i + 1)).length :=
        List.Sublist.length_le (List.takeWhile_sublist _)
      rw [List.length_drop] at ht
      omega
    · cases h
  · cases h

theorem tryRules_bounds (opts : HighlightingOptions) (i : Nat) (c : Char)
    (chars : List Char) (jt : Nat × HType) (hi : i < chars.length)
    (h : tryRules opts i c chars = some jt) :
    i < jt.1 ∧ jt.1 ≤ chars.length + 1 := by
  unfold tryRules at h
  cases h1 : highlight_char opts i c chars with
  | some j =>
    rw [h1] at h
    have h2 : some (j, HType.Character) = some jt := h
    injection h2 with hj
    subst hj
    have := highlight_char_bounds opts i c chars j h1
    exact ⟨this.1, by omega⟩
  | none =>
    rw [h1] at h
    cases h2 : highlight_comment opts i c chars with
    | some j =>
      rw [h2] at h
      have h3 : some (j, HType.Comment) = some jt := h
      injection h3 with hj
      subst hj
      have := highlight_comment_bounds opts i c chars j h2
      exact ⟨this.1, by omega⟩
    | none =>
      rw [h2] at h
      cases h3 : highlight_keywords i chars opts.primary_keywords with
      | some j =>
        rw [h3] at h
        have h4 : some (j, HType.PrimaryKeyword) = some jt := h
        injection h4 with hj
        subst hj
        have := highlight_keywords_bounds i chars opts.primary_keywords j h3
        exact ⟨this.1, by omega⟩
      | none =>
        rw [h3] at h
        cases h4 : highlight_keywords i chars opts.secondary_keywords with
        | some j =>
          rw [h4] at h
          have h5 : some (j, HType.SecondaryKeyword) = some jt := h
          injection h5 with hj
          subst hj
          have := highlight_keywords_bounds i chars opts.secondary_keywords j h4
          exact ⟨this.1, by omega⟩
        | none =>
          rw [h4] at h
          cases h5 : highlight_string opts i c chars with
          | some j =>
            rw [h5] at h
            have h6 : some (j, HType.String) = some jt := h
            injection h6 with hj
            subst hj
            exact highlight_string_bounds opts i c chars j hi h5
          | none =>
            rw [h5] at h
            cases h6 : highlight_number opts i c chars with
            | some j =>
              rw [h6] at h
              have h7 : some (j, HType.Number) = some jt := h
              injection h7 with hj
              subst hj
              have := highlight_number_bounds opts i c chars j hi h6
              exact ⟨this.1, by omega⟩
            | none => rw [h6] at h; cases h

theorem getElem_none_ge {α : Type} {l : List α} {i : Nat}
    (h : l[i]? = none) : l.length ≤ i := by
  by_contra hc
  rw [List.getElem?_eq_getElem (by omega)] at h
  cases h

theorem scanLoop_of_ge (opts : HighlightingOptions) (chars : List Char)
    (fuel i : Nat) (b : Bool) (h : chars.length ≤ i) :
    scanLoop opts chars fuel i b = ([], b) := by
  cases fuel with
  | zero => rfl
  | succ f =>
    simp only [scanLoop, List.getElem?_eq_none h]

theorem scanLoop_length_bounds (opts : HighlightingOptions)
    (chars : List Char) :
    ∀ (fuel i : Nat) (b : Bool), chars.length ≤ i + fuel →
      i ≤ chars.length →
      chars.length ≤ (scanLoop opts chars fuel i b).1.length + i ∧
      (scanLoop opts chars fuel i b).1.length + i ≤ chars.length + 1 := by
  intro fuel
  induction fuel with
  | zero =>
    intro i b h1 h2
    simp only [scanLoop, List.length_nil]
    omega
  | succ f ih =>
    intro i b h1 h2
    cases hg : chars[i]? with
    | none =>
      have hge := getElem_none_ge hg
      simp only [scanLoop, hg, List.length_nil]
      omega
    | some c =>
      have hi : i < chars.length := getElem_some_lt hg
      cases hml : highlight_multiline_comment opts i c chars with
      | some j =>
        have hb := highlight_multiline_comment_bounds opts i c chars j hml
        have ihj := ih j true (by omega) (by omega)
        simp only [scanLoop, hg, hml, List.length_append, List.length_replicate]
        omega
      | none =>
        cases htr : tryRules opts i c chars with
        | some jt =>
          have hb := tryRules_bounds opts i c chars jt hi htr
          by_cases hj : jt.1 ≤ chars.length
          · have ihj := ih jt.1 false (by omega) hj
            simp only [scanLoop, hg, hml, htr, List.length_append,
              List.length_replicate]
            omega
          · have hnil := scanLoop_of_ge opts chars f jt.1 false (by omega)
            simp only [scanLoop, hg, hml, htr, hnil, List.length_append,
              List.length_replicate, List.length_nil]
            omega
        | none =>
          have ihj := ih (i + 1) false (by omega) (by omega)
          simp only [scanLoop, hg, hml, htr, List.length_cons]
          omega

theorem prefixInfo_bounds (s : List Char) (flag : Bool) :
    (prefixInfo s flag).1 ≤ s.length ∧
    (prefixInfo s flag).2.length = (prefixInfo s flag).1 := by
  cases flag with
  | false => simp [prefixInfo]
  | true =>
    cases hs : subIdx s [starC, slashC] with
    | none => simp [prefixInfo, hs]
    | some ci =>
      have hb := subIdx_bound s [starC, slashC] ci hs
      simp only [List.length_cons, List.length_nil] at hb
      have hred : prefixInfo s true = (ci + 2, List.replicate (ci + 2) HType.MultilineComment) := by
        simp [prefixInfo, hs]
      rw [hred]
      refine ⟨?_, ?_⟩
      · show ci + 2 ≤ s.length
        omega
      · show (List.replicate (ci + 2) HType.MultilineComment).length = ci + 2
        exact List.length_replicate _ _

theorem scanTags_length_bounds (opts : HighlightingOptions) (s : List Char)
    (flag : Bool) :
    s.length ≤ (scanTags opts s flag).1.length ∧
    (scanTags opts s flag).1.length ≤ s.length + 1 := by
  have hp := prefixInfo_bounds s flag
  have hs := scanLoop_length_bounds opts s (s.length + 1)
    (prefixInfo s flag).1 flag (by omega) hp.1
  simp only [scanTags, List.length_append]
  omega

theorem setMatchFrom_length :
    ∀ (n lo : Nat) (tags : List HType),
      (setMatchFrom tags lo n).length = tags.length := by
  intro n
  induction n with
  | zero => intro lo tags; rfl
  | succ m ih =>
    intro lo tags
    simp only [setMatchFrom]
    rw [ih, List.length_set]

theorem matchLoop_length (r : Row) (w : List Char) :
    ∀ (fuel i : Nat) (tags : List HType),
      (matchLoop r w fuel i tags).length = tags.length := by
  intro fuel
  induction fuel with
  | zero => intro i tags; rfl
  | succ f ih =>
    intro i tags
    cases hf : Row.find r w i SearchDirection.Forward with
    | none => simp only [matchLoop, hf]
    | some m =>
      simp only [matchLoop, hf]
      rw [ih, setMatchFrom_length]

theorem highlightMatch_length (r : Row) (word : Option (List Char))
    (tags : List HType) :
    (highlightMatch r word tags).length = tags.length := by
  cases word with
  | none => rfl
  | some w =>
    simp only [highlightMatch]
    split
    · rfl
    · exact matchLoop_length r w (r.len + 1) 0 tags

theorem highlight_stale_highlighting (r : Row) (opts : HighlightingOptions)
    (word : Option (List Char)) (flag : Bool)
    (hr : r.is_highlighted = false) :
    (Row.highlight r opts word flag).1.highlighting =
      highlightMatch r word (scanTags opts r.string flag).1 := by
  simp only [Row.highlight]
  rw [if_neg (by simp [hr])]
  split <;> rfl

theorem contains_allHTypes (t : HType) : allHTypes.contains t = true := by
  cases t <;> rfl

/-- C1 amended: after a classification scan of a stale line (any content,
any profile, any carried-in flag, any search word), the tag-sequence length
is the line's unit count, except that a string literal left unterminated at
end of line contributes one extra tag (the unit count is a lower bound and
unit count + 1 an upper bound), and every tag is drawn from the closed
nine-element set. -/
theorem claim_C1_amended (s : List Char) (hs : List HType)
    (opts : HighlightingOptions) (w : Option (List Char)) (flag : Bool) :
    s.length ≤ ((Row.highlight ⟨s, hs, s.length, false⟩ opts w flag).1.highlighting).length ∧
    ((Row.highlight ⟨s, hs, s.length, false⟩ opts w flag).1.highlighting).length ≤ s.length + 1 ∧
    ((Row.highlight ⟨s, hs, s.length, false⟩ opts w flag).1.highlighting).all
      (fun t => allHTypes.contains t) = true := by
  have hh := highlight_stale_highlighting ⟨s, hs, s.length, false⟩ opts w flag rfl
  rw [hh, highlightMatch_length]
  have hb := scanTags_length_bounds opts (Row.string ⟨s, hs, s.length, false⟩) flag
  refine ⟨?_, ?_, ?_⟩
  · exact hb.1
  · exact hb.2
  · exact List.all_eq_true.mpr (fun x _ => contains_allHTypes x)

/-! ### Claims C1 (counterexample), C2, C6, C9, C10 -/

/-- C1 counterexample: scanning the one-unit line consisting of a lone
double quote, with strings enabled, produces two tags (the unterminated
string's closing push runs even at end of line), so the tag-sequence length
is not the unit count. -/
theorem claim_C1_counterexample :
    (Row.highlight (Row.fromText [quoteC])
      ⟨false, true, false, false, false, [], []⟩ none false).1.highlighting.length = 2 ∧
    (Row.fromText [quoteC]).string.length = 1 := by
  decide

/-- C2: evaluation at the failing input.  A fresh scan of the line
"/* a */" (comments enabled, no carried-in flag) reports "not still open"
(false) and caches the row with `MultilineComment` as its last tag; the
claim then demands that a fresh-classification rescan with no search word
return false (its exception requires the final two units NOT to be the
closing marker, but here they are "*/").  The code instead returns true:
its cached path tests for the content ENDING with "*/" where the fresh path
(and the claim) test for NOT ending with it. -/
theorem claim_C2_bug :
    (Row.highlight (Row.fromText (("/* a */").toList))
      ⟨false, false, false, true, true, [], []⟩ none false).2 = false ∧
    (Row.highlight (Row.fromText (("/* a */").toList))
      ⟨false, false, false, true, true, [], []⟩ none false).1.is_highlighted = true ∧
    (Row.highlight (Row.fromText (("/* a */").toList))
      ⟨false, false, false, true, true, [], []⟩ none false).1.highlighting.getLast? =
      some HType.MultilineComment ∧
    endsML (("/* a */").toList) = true ∧
    (Row.highlight (Row.highlight (Row.fromText (("/* a */").toList))
      ⟨false, false, false, true, true, [], []⟩ none false).1
      ⟨false, false, false, true, true, [], []⟩ none false).2 = true := by
  decide

/-- C6: evaluation at the failing input.  For a profile with the multi-line
comment rule disabled but line comments enabled, scanning "/* a */" tags
every unit `MultilineComment`: the source gates
`highlight_multiline_comment` on the line-comment flag `comments()` and
never consults `multiline_comments()`. -/
theorem claim_C6_bug :
    (⟨false, false, false, true, false, [], []⟩ : HighlightingOptions).multiline_comments = false ∧
    (Row.highlight (Row.fromText (("/* a */").toList))
      ⟨false, false, false, true, false, [], []⟩ none false).1.highlighting =
      List.replicate 7 HType.MultilineComment := by
  decide

/-- C9: keyword matching requires separator boundaries on both sides.  With
primary keyword "let", scanning "letter = 1;" yields no keyword tag at all
(every unit is `None`), while scanning "let x = 1;" tags exactly the first
three units `PrimaryKeyword` and every other unit `None`. -/
theorem claim_C9 :
    (Row.highlight (Row.fromText (("letter = 1;").toList))
      ⟨false, false, false, false, false, [("let").toList], []⟩ none false).1.highlighting =
      List.replicate 11 HType.None ∧
    (Row.highlight (Row.fromText (("let x = 1;").toList))
      ⟨false, false, false, false, false, [("let").toList], []⟩ none false).1.highlighting =
      [HType.PrimaryKeyword, HType.PrimaryKeyword, HType.PrimaryKeyword] ++
        List.replicate 7 HType.None := by
  decide

/-- C10: with no backing file path, `save` returns success without touching
the buffer: the rows, the dirty flag (whatever its prior value) and the
file type are all unchanged, whatever the abstracted I/O outcomes. -/
theorem claim_C10 (rows : List Row) (dirty : Bool) (ft : FileType)
    (createOk writeOk : Bool) :
    Document.save ⟨rows, none, dirty, ft⟩ createOk writeOk =
      (⟨rows, none, dirty, ft⟩, true) :=
  rfl
